import Mathlib

/-!
Shallow embedding of mvdan.cc/responsefile (responsefile.go).

Arguments and file contents are modelled as `List Char`, matching Go's
iteration over runes; byte lengths use `Char.utf8Size`, matching Go's
`len(arg)` on UTF-8 strings. The filesystem seen by `Expand` is a partial
map from paths to contents; `Shorten`'s temporary-file syscalls are
abstracted by a `TempFileWorld` describing the outcome of each call.
-/

namespace ResponseFile

/-- Go `len(arg)`: the UTF-8 byte length of a string. -/
def byteLen (s : List Char) : Nat := (s.map Char.utf8Size).sum

/-- The rune loop of `appendEncodedArg`: `\` becomes `\\`, newline becomes
`\n` (backslash + letter n), every other rune is emitted unchanged. -/
def encodeChars : List Char → List Char
  | [] => []
  | c :: rest =>
    if c = '\\' then '\\' :: '\\' :: encodeChars rest
    else if c = '\n' then '\\' :: 'n' :: encodeChars rest
    else c :: encodeChars rest

/-- Go `appendEncodedArg(buf, arg)`: shortcut appending `arg` unchanged when
it contains neither `\` nor newline (`!strings.ContainsAny(arg, "\\\n")`),
otherwise append the escaped form. -/
def appendEncodedArg (buf : List Char) (arg : List Char) : List Char :=
  if ¬ ('\\' ∈ arg ∨ '\n' ∈ arg) then buf ++ arg
  else buf ++ encodeChars arg

/-- The error produced by `decodeArg` (`fmt.Errorf("unsupported escape
sequence: %q", ...)`), carrying the offending two-character sequence. -/
inductive DecodeErr where
  | unsupportedEscape (seq : List Char)
  deriving DecidableEq, Repr

/-- The rune loop of `decodeArg`, with the `escaping` flag explicit.
When the line ends, Go returns `buf.String()` whatever the flag says, so a
trailing unterminated escape is dropped silently. -/
def decodeChars : Bool → List Char → Except DecodeErr (List Char)
  | _, [] => .ok []
  | true, c :: rest =>
    if c = '\\' then (decodeChars false rest).map (fun t => '\\' :: t)
    else if c = 'n' then (decodeChars false rest).map (fun t => '\n' :: t)
    else .error (.unsupportedEscape ['\\', c])
  | false, c :: rest =>
    if c = '\\' then decodeChars true rest
    else (decodeChars false rest).map (fun t => c :: t)

/-- Go `decodeArg(line)`: shortcut returning the line unchanged when it
contains no `\` (`!strings.Contains(line, "\\")`), otherwise run the
escape-decoding loop. -/
def decodeArg (line : List Char) : Except DecodeErr (List Char) :=
  if '\\' ∉ line then .ok line
  else decodeChars false line

/-- Go's line loop `for len(rest) > 0 { line, rest, _ = strings.Cut(rest, "\n") }`:
empty content has zero lines; a leading newline ends an empty line; otherwise
the first rune belongs to the first line (which is the whole content when no
newline follows). -/
def splitLines : List Char → List (List Char)
  | [] => []
  | c :: rest =>
    if c = '\n' then [] :: splitLines rest
    else
      match splitLines rest with
      | [] => [[c]]
      | l :: ls => (c :: l) :: ls

/-- Go `strings.TrimSuffix(line, "\r")`: drop one trailing carriage return
if present. -/
def trimSuffixCr (line : List Char) : List Char :=
  if line.getLast? = some '\r' then line.dropLast else line

/-- Go `strings.CutPrefix(s, "@")`: `some rest` when `s` starts with `@`. -/
def cutAtSign : List Char → Option (List Char)
  | '@' :: rest => some rest
  | _ => none

/-- Errors surfaced by `Expand`: a failed `os.ReadFile` (wrapped as
"cannot read response file"), or a `decodeArg` failure returned as-is. -/
inductive ExpandErr where
  | readFailed (path : List Char)
  | decodeFailed (e : DecodeErr)
  deriving DecidableEq, Repr

/-- The inner loop of `Expand` over one file's lines. Each line is
CR-trimmed and decoded; a decoded argument starting with `@` is expanded
through `nest` (Go: `Expand([]string{arg}, opts)`) and the results spliced
in, otherwise the argument itself is appended. Errors abort immediately;
`none` propagates fuel exhaustion of a nested expansion. -/
def processLines (nest : List Char → Option (Except ExpandErr (List (List Char)))) :
    List (List Char) → Option (Except ExpandErr (List (List Char)))
  | [] => some (.ok [])
  | line :: rest =>
    match decodeArg (trimSuffixCr line) with
    | .error e => some (.error (.decodeFailed e))
    | .ok arg =>
      match (if (cutAtSign arg).isSome then nest arg else some (.ok [arg])) with
      | none => none
      | some (.error e) => some (.error e)
      | some (.ok produced) =>
        match processLines nest rest with
        | none => none
        | some (.error e) => some (.error e)
        | some (.ok tailArgs) => some (.ok (produced ++ tailArgs))

/-- The outer loop of `Expand` over the argument list. `expanded = none`
models Go's nil slice: arguments are only accumulated once a `@` argument
has been seen, at which point the already-walked prefix `seen` (Go:
`args[:i]`) seeds the accumulator. A missing file aborts with a read
error. -/
def expandLoop (fs : List Char → Option (List Char))
    (nest : List Char → Option (Except ExpandErr (List (List Char)))) :
    List (List Char) → Option (List (List Char)) → List (List Char) →
    Option (Except ExpandErr (Option (List (List Char))))
  | [], expanded, _ => some (.ok expanded)
  | s :: rest, expanded, seen =>
    match cutAtSign s with
    | none => expandLoop fs nest rest (expanded.map (fun l => l ++ [s])) (seen ++ [s])
    | some path =>
      match fs path with
      | none => some (.error (.readFailed path))
      | some content =>
        match processLines nest (splitLines content) with
        | none => none
        | some (.error e) => some (.error e)
        | some (.ok produced) =>
          expandLoop fs nest rest (some (expanded.getD seen ++ produced)) (seen ++ [s])

/-- Go `Expand(args, opts)` against filesystem `fs`, with `fuel` bounding
the nesting depth of recursive expansions (Go recurses unboundedly; a
`none` result means the recursion did not bottom out within `fuel`).
When the loop never saw a `@` argument (`expanded == nil`), the original
`args` is returned. -/
def expand (fs : List Char → Option (List Char)) :
    Nat → List (List Char) → Option (Except ExpandErr (List (List Char)))
  | 0, _ => none
  | fuel + 1, args =>
    match expandLoop fs (fun arg => expand fs fuel [arg]) args none [] with
    | none => none
    | some (.error e) => some (.error e)
    | some (.ok none) => some (.ok args)
    | some (.ok (some result)) => some (.ok result)

/-- The cleanup function returned by `Shorten`: `func() {}` in the no-file
case, `func() { os.Remove(f.Name()) }` after a file was created. -/
inductive CleanupFunc where
  | noop
  | removeFile (path : List Char)
  deriving DecidableEq, Repr

/-- Errors of `Shorten`: "cannot create/write/close response file". -/
inductive ShortenErr where
  | createFailed
  | writeFailed
  | closeFailed
  deriving DecidableEq, Repr

/-- Go `ShortenOptions`. -/
structure ShortenOptions where
  argLengthLimit : Int
  deriving DecidableEq, Repr

/-- Go `opts.applyDefaults()`: a zero limit means 30 KiB (`30 << 10`). -/
def applyDefaults (opts : ShortenOptions) : ShortenOptions :=
  if opts.argLengthLimit = 0 then { argLengthLimit := 30 * 1024 } else opts

/-- Outcome of the temporary-file syscalls available to one `Shorten` call:
`createResult` is the unique name returned by `os.CreateTemp` (or `none`
when creation fails); `writeOk`/`closeOk` tell whether `f.Write`/`f.Close`
succeed. -/
structure TempFileWorld where
  createResult : Option (List Char)
  writeOk : Bool
  closeOk : Bool
  deriving DecidableEq, Repr

/-- What `Shorten` returns and leaves behind. `args`/`cleanup` are `none`
exactly where Go returns nil values; `tempFile` is the response file still
on disk when `Shorten` returns (error paths invoke the cleanup before
returning, so no file remains there). -/
structure ShortenResult where
  args : Option (List (List Char))
  cleanup : Option CleanupFunc
  err : Option ShortenErr
  tempFile : Option (List Char × List Char)
  deriving DecidableEq, Repr

/-- Go's buffer build in `Shorten`: each argument is encoded and followed
by one newline. -/
def encodeArgsBuf (buf : List Char) : List (List Char) → List Char
  | [] => buf
  | arg :: rest => encodeArgsBuf (appendEncodedArg buf arg ++ ['\n']) rest

/-- Go `Shorten(args, opts)` under syscall outcomes `w`. Total argument
byte length zero or within the (defaulted) limit short-circuits to the
original list with a no-op cleanup; otherwise the encoded buffer is written
to a fresh temporary file and the single argument `@path` is returned. On
write/close failure the Go code calls `cleanup()` before returning, so the
file is removed and nil results accompany the error. -/
def shorten (args : List (List Char)) (opts : ShortenOptions) (w : TempFileWorld) :
    ShortenResult :=
  let opts := applyDefaults opts
  let argLen : Nat := (args.map byteLen).sum
  if argLen = 0 ∨ (argLen : Int) ≤ opts.argLengthLimit then
    { args := some args, cleanup := some .noop, err := none, tempFile := none }
  else
    let buf := encodeArgsBuf [] args
    match w.createResult with
    | none => { args := none, cleanup := none, err := some .createFailed, tempFile := none }
    | some path =>
      if w.writeOk = false then
        { args := none, cleanup := none, err := some .writeFailed, tempFile := none }
      else if w.closeOk = false then
        { args := none, cleanup := none, err := some .closeFailed, tempFile := none }
      else
        { args := some [('@' :: path)], cleanup := some (.removeFile path), err := none,
          tempFile := some (path, buf) }

/-- The filesystem after a `Shorten` call: the temporary file it left
behind (if any) becomes readable at its path. -/
def fsAfterShorten (fs : List Char → Option (List Char)) (r : ShortenResult) :
    List Char → Option (List Char) :=
  match r.tempFile with
  | none => fs
  | some (path, content) => fun q => if q = path then some content else fs q

/-- A filesystem with no readable files (in particular the empty path is
not readable, matching `os.ReadFile("")`). -/
def emptyFs : List Char → Option (List Char) := fun _ => none

/-! ### Lemmas about the encoder -/

theorem encodeChars_append (a b : List Char) :
    encodeChars (a ++ b) = encodeChars a ++ encodeChars b := by
  induction a with
  | nil => rfl
  | cons c rest ih =>
    simp only [List.cons_append, encodeChars]
    split_ifs <;> simp [ih]

theorem encodeChars_eq_self (a : List Char) (h1 : '\\' ∉ a) (h2 : '\n' ∉ a) :
    encodeChars a = a := by
  induction a with
  | nil => rfl
  | cons c rest ih =>
    simp only [List.mem_cons, not_or] at h1 h2
    simp only [encodeChars]
    rw [if_neg (fun hc => h1.1 hc.symm), if_neg (fun hc => h2.1 hc.symm), ih h1.2 h2.2]

theorem appendEncodedArg_eq (buf a : List Char) :
    appendEncodedArg buf a = buf ++ encodeChars a := by
  unfold appendEncodedArg
  by_cases h : '\\' ∈ a ∨ '\n' ∈ a
  · rw [if_neg (not_not_intro h)]
  · rw [if_pos h]
    push_neg at h
    rw [encodeChars_eq_self a h.1 h.2]

theorem nl_not_mem_encodeChars (a : List Char) : '\n' ∉ encodeChars a := by
  induction a with
  | nil => simp [encodeChars]
  | cons c rest ih =>
    simp only [encodeChars]
    split_ifs with h1 h2
    · simp only [List.mem_cons, not_or]
      exact ⟨by decide, by decide, ih⟩
    · simp only [List.mem_cons, not_or]
      exact ⟨by decide, by decide, ih⟩
    · simp only [List.mem_cons, not_or]
      exact ⟨fun hc => h2 hc.symm, ih⟩

theorem encodeChars_self_of_no_bs (a : List Char) (h : '\\' ∉ encodeChars a) :
    encodeChars a = a := by
  induction a with
  | nil => rfl
  | cons c rest ih =>
    simp only [encodeChars] at h ⊢
    split_ifs at h ⊢ with h1 h2
    · simp at h
    · simp at h
    · simp only [List.mem_cons, not_or] at h
      rw [ih h.2]

theorem encodeChars_ne_nil (a : List Char) (h : a ≠ []) : encodeChars a ≠ [] := by
  cases a with
  | nil => simp at h
  | cons c rest =>
    simp only [encodeChars]
    split_ifs <;> simp

theorem getLast?_cons_of_ne_nil (c : Char) (l : List Char) (h : l ≠ []) :
    (c :: l).getLast? = l.getLast? := by
  cases l with
  | nil => simp at h
  | cons d t => simp [List.getLast?_cons_cons]

theorem encodeChars_cons (c : Char) (rest : List Char) :
    encodeChars (c :: rest) =
      (if c = '\\' then ['\\', '\\'] else if c = '\n' then ['\\', 'n'] else [c]) ++
        encodeChars rest := by
  simp only [encodeChars]
  split_ifs <;> rfl

theorem getLast_encodeChars_ne_cr (a : List Char) (h : a.getLast? ≠ some '\r') :
    (encodeChars a).getLast? ≠ some '\r' := by
  induction a with
  | nil => simp [encodeChars]
  | cons c rest ih =>
    rw [encodeChars_cons]
    by_cases hr : rest = []
    · subst hr
      simp only [List.getLast?_singleton] at h
      simp only [encodeChars, List.append_nil]
      split_ifs <;> simp_all [List.getLast?]
    · rw [List.getLast?_append_of_ne_nil _ (encodeChars_ne_nil rest hr)]
      apply ih
      rwa [getLast?_cons_of_ne_nil c rest hr] at h

/-! ### Lemmas about the decoder -/

theorem decodeChars_encodeChars (a : List Char) :
    decodeChars false (encodeChars a) = .ok a := by
  induction a with
  | nil => rfl
  | cons c rest ih =>
    simp only [encodeChars]
    split_ifs with h1 h2
    · subst h1
      simp [decodeChars, ih, Except.map]
    · subst h2
      simp [decodeChars, ih, Except.map]
    · simp [decodeChars, h1, ih, Except.map]

theorem decodeArg_encodeChars (a : List Char) : decodeArg (encodeChars a) = .ok a := by
  unfold decodeArg
  by_cases h : '\\' ∈ encodeChars a
  · rw [if_neg (not_not_intro h)]
    exact decodeChars_encodeChars a
  · rw [if_pos h, encodeChars_self_of_no_bs a h]

theorem decodeArg_of_no_bs (line : List Char) (h : '\\' ∉ line) :
    decodeArg line = .ok line := by
  unfold decodeArg
  rw [if_pos h]

theorem decodeChars_false_cons (c : Char) (rest : List Char) (h : c ≠ '\\') :
    decodeChars false (c :: rest) = (decodeChars false rest).map (fun t => c :: t) := by
  simp only [decodeChars]
  rw [if_neg h]

/-! ### Lemmas about line splitting and trimming -/

theorem splitLines_no_nl (a : List Char) (h : '\n' ∉ a) (hne : a ≠ []) :
    splitLines a = [a] := by
  induction a with
  | nil => simp at hne
  | cons c rest ih =>
    simp only [List.mem_cons, not_or] at h
    have hstep : splitLines (c :: rest) =
        match splitLines rest with
        | [] => [[c]]
        | l :: ls => (c :: l) :: ls := by
      simp only [splitLines]
      rw [if_neg (fun hc => h.1 hc.symm)]
    rw [hstep]
    by_cases hr : rest = []
    · subst hr
      rfl
    · rw [ih h.2 hr]

theorem splitLines_append_nl (a rest : List Char) (h : '\n' ∉ a) :
    splitLines (a ++ '\n' :: rest) = a :: splitLines rest := by
  induction a with
  | nil => simp [splitLines]
  | cons c t ih =>
    simp only [List.mem_cons, not_or] at h
    simp only [List.cons_append, splitLines, List.append_eq]
    rw [if_neg (fun hc => h.1 hc.symm), ih h.2]

theorem trimSuffixCr_eq_self (l : List Char) (h : l.getLast? ≠ some '\r') :
    trimSuffixCr l = l := by
  unfold trimSuffixCr
  rw [if_neg h]

theorem trimSuffixCr_append_cr (l : List Char) : trimSuffixCr (l ++ ['\r']) = l := by
  unfold trimSuffixCr
  rw [if_pos (by simp), List.dropLast_concat]

/-! ### Lemmas about the shortener's buffer -/

theorem encodeArgsBuf_eq (buf : List Char) (args : List (List Char)) :
    encodeArgsBuf buf args = buf ++ encodeArgsBuf [] args := by
  induction args generalizing buf with
  | nil => simp [encodeArgsBuf]
  | cons a rest ih =>
    simp only [encodeArgsBuf]
    rw [ih (appendEncodedArg buf a ++ ['\n']), ih (appendEncodedArg [] a ++ ['\n']),
      appendEncodedArg_eq, appendEncodedArg_eq]
    simp

theorem splitLines_encodeArgsBuf (args : List (List Char)) :
    splitLines (encodeArgsBuf [] args) = args.map encodeChars := by
  induction args with
  | nil => rfl
  | cons a rest ih =>
    rw [encodeArgsBuf, encodeArgsBuf_eq, appendEncodedArg_eq]
    simp only [List.nil_append, List.append_assoc, List.singleton_append]
    rw [splitLines_append_nl _ _ (nl_not_mem_encodeChars a), ih, List.map_cons]

/-! ### Lemmas about the expander's loops -/

theorem processLines_plain (nest : List Char → Option (Except ExpandErr (List (List Char))))
    (args : List (List Char))
    (h : ∀ a ∈ args, cutAtSign a = none ∧ a.getLast? ≠ some '\r') :
    processLines nest (args.map encodeChars) = some (.ok args) := by
  induction args with
  | nil => rfl
  | cons a rest ih =>
    obtain ⟨h1, h2⟩ := h a (by simp)
    have ih2 := ih (fun b hb => h b (by simp [hb]))
    simp [processLines, trimSuffixCr_eq_self _ (getLast_encodeChars_ne_cr a h2),
      decodeArg_encodeChars, h1, ih2]

theorem expandLoop_no_at (fs : List Char → Option (List Char))
    (nest : List Char → Option (Except ExpandErr (List (List Char))))
    (args seen : List (List Char)) (h : ∀ a ∈ args, cutAtSign a = none) :
    expandLoop fs nest args none seen = some (.ok none) := by
  induction args generalizing seen with
  | nil => rfl
  | cons a rest ih =>
    simp only [expandLoop]
    rw [h a (by simp)]
    exact ih (seen ++ [a]) (fun b hb => h b (by simp [hb]))

theorem expand_no_at (fs : List Char → Option (List Char)) (fuel : Nat)
    (args : List (List Char)) (h : ∀ a ∈ args, cutAtSign a = none) :
    expand fs (fuel + 1) args = some (.ok args) := by
  simp only [expand, expandLoop_no_at fs _ args [] h]

theorem expand_one_file (fs : List Char → Option (List Char)) (fuel : Nat)
    (path content : List Char) (out : List (List Char))
    (hfs : fs path = some content)
    (hproc : processLines (fun arg => expand fs fuel [arg]) (splitLines content) =
      some (.ok out)) :
    expand fs (fuel + 1) [('@' :: path)] = some (.ok out) := by
  simp only [expand, expandLoop, cutAtSign, hfs, hproc, Option.getD_none, List.nil_append]

theorem expand_one_file_error (fs : List Char → Option (List Char)) (fuel : Nat)
    (path content : List Char) (e : ExpandErr)
    (hfs : fs path = some content)
    (hproc : processLines (fun arg => expand fs fuel [arg]) (splitLines content) =
      some (.error e)) :
    expand fs (fuel + 1) [('@' :: path)] = some (.error e) := by
  simp only [expand, expandLoop, cutAtSign, hfs, hproc]

theorem expand_read_failed (fs : List Char → Option (List Char)) (fuel : Nat)
    (path : List Char) (hfs : fs path = none) :
    expand fs (fuel + 1) [('@' :: path)] = some (.error (.readFailed path)) := by
  simp only [expand, expandLoop, cutAtSign, hfs]

/-! ### Lemmas about the shortener's branches -/

theorem shorten_noop (args : List (List Char)) (opts : ShortenOptions) (w : TempFileWorld)
    (h : (args.map byteLen).sum = 0 ∨
      ((args.map byteLen).sum : Int) ≤ (applyDefaults opts).argLengthLimit) :
    shorten args opts w =
      { args := some args, cleanup := some .noop, err := none, tempFile := none } := by
  simp only [shorten]
  rw [if_pos h]

theorem shorten_written (args : List (List Char)) (opts : ShortenOptions) (p : List Char)
    (h : ¬((args.map byteLen).sum = 0 ∨
      ((args.map byteLen).sum : Int) ≤ (applyDefaults opts).argLengthLimit)) :
    shorten args opts ⟨some p, true, true⟩ =
      { args := some [('@' :: p)], cleanup := some (.removeFile p), err := none,
        tempFile := some (p, encodeArgsBuf [] args) } := by
  simp only [shorten]
  rw [if_neg h]
  rfl

theorem shorten_create_failed (args : List (List Char)) (opts : ShortenOptions) (b1 b2 : Bool)
    (h : ¬((args.map byteLen).sum = 0 ∨
      ((args.map byteLen).sum : Int) ≤ (applyDefaults opts).argLengthLimit)) :
    shorten args opts ⟨none, b1, b2⟩ =
      { args := none, cleanup := none, err := some .createFailed, tempFile := none } := by
  simp only [shorten]
  rw [if_neg h]

theorem shorten_write_failed (args : List (List Char)) (opts : ShortenOptions)
    (p : List Char) (b2 : Bool)
    (h : ¬((args.map byteLen).sum = 0 ∨
      ((args.map byteLen).sum : Int) ≤ (applyDefaults opts).argLengthLimit)) :
    shorten args opts ⟨some p, false, b2⟩ =
      { args := none, cleanup := none, err := some .writeFailed, tempFile := none } := by
  simp only [shorten]
  rw [if_neg h]
  rfl

theorem shorten_close_failed (args : List (List Char)) (opts : ShortenOptions) (p : List Char)
    (h : ¬((args.map byteLen).sum = 0 ∨
      ((args.map byteLen).sum : Int) ≤ (applyDefaults opts).argLengthLimit)) :
    shorten args opts ⟨some p, true, false⟩ =
      { args := none, cleanup := none, err := some .closeFailed, tempFile := none } := by
  simp only [shorten]
  rw [if_neg h]
  rfl

theorem applyDefaults_of_ne_zero (opts : ShortenOptions) (h : opts.argLengthLimit ≠ 0) :
    applyDefaults opts = opts := by
  unfold applyDefaults
  rw [if_neg h]

/-! ### Claim theorems -/

/-- C2: for every string `s` (in particular strings containing backslash,
newline, carriage return and non-ASCII codepoints), decoding the encoded
form returns `s` exactly, and the encoded form never contains a literal
newline. -/
theorem claim_encode_decode_roundtrip (s : List Char) :
    decodeArg (appendEncodedArg [] s) = .ok s ∧ '\n' ∉ appendEncodedArg [] s := by
  rw [appendEncodedArg_eq, List.nil_append]
  exact ⟨decodeArg_encodeChars s, nl_not_mem_encodeChars s⟩

/-- C3 counterexample: the claim says a line that ends while an escape is
still open makes the decoder return the unsupported-escape error, but on
the single-backslash line the code returns a success result (the trailing
backslash is dropped). -/
theorem claim_trailing_escape_counterexample : decodeArg ['\\'] = .ok [] := rfl

theorem decodeChars_trailing_bs (s : List Char) (h : '\\' ∉ s) :
    decodeChars false (s ++ ['\\']) = .ok s := by
  induction s with
  | nil => rfl
  | cons c rest ih =>
    simp only [List.mem_cons, not_or] at h
    rw [List.cons_append, decodeChars_false_cons c _ (fun hc => h.1 hc.symm), ih h.2]
    rfl

/-- C3 amended: for every line that ends while an escape is still open, the
decoder silently drops the trailing backslash and returns the decoded
prefix as a success result (no error is reported). -/
theorem claim_trailing_escape_dropped (s : List Char) (h : '\\' ∉ s) :
    decodeArg (s ++ ['\\']) = .ok s := by
  unfold decodeArg
  rw [if_neg (not_not_intro (by simp)), decodeChars_trailing_bs s h]

theorem claim_trailing_escape_dropped_witness : decodeArg (['a'] ++ ['\\']) = .ok ['a'] :=
  claim_trailing_escape_dropped ['a'] (by decide)

theorem decodeChars_bad_escape (p : List Char) (x : Char) (q : List Char)
    (hp : '\\' ∉ p) (hx1 : x ≠ '\\') (hx2 : x ≠ 'n') :
    decodeChars false (p ++ '\\' :: x :: q) = .error (.unsupportedEscape ['\\', x]) := by
  induction p with
  | nil =>
    have hstep : decodeChars false ('\\' :: x :: q) = decodeChars true (x :: q) := rfl
    rw [List.nil_append, hstep]
    simp only [decodeChars]
    rw [if_neg hx1, if_neg hx2]
  | cons c rest ih =>
    simp only [List.mem_cons, not_or] at hp
    rw [List.cons_append, decodeChars_false_cons c _ (fun hc => hp.1 hc.symm), ih hp.2]
    rfl

/-- C5: a line containing the two-character sequence `\x`, for `x` neither
`\` nor `n` (the backslash being the scan's first, i.e. not itself
escaped), fails to decode with the unsupported-escape error carrying the
offending two-character sequence, and expanding a `@path` argument whose
file consists of such a line aborts the whole expansion with that same
error. -/
theorem claim_unsupported_escape_rejected (p : List Char) (x : Char) (q : List Char)
    (fs : List Char → Option (List Char)) (path : List Char) (fuel : Nat)
    (hp : '\\' ∉ p) (hx1 : x ≠ '\\') (hx2 : x ≠ 'n') :
    decodeArg (p ++ '\\' :: x :: q) = .error (.unsupportedEscape ['\\', x]) ∧
      ('\n' ∉ p → x ≠ '\n' → x ≠ '\r' →
        fs path = some (p ++ ['\\', x]) →
        expand fs (fuel + 1) [('@' :: path)] =
          some (.error (.decodeFailed (.unsupportedEscape ['\\', x])))) := by
  have hdec : decodeArg (p ++ '\\' :: x :: q) = .error (.unsupportedEscape ['\\', x]) := by
    unfold decodeArg
    rw [if_neg (not_not_intro (by simp)), decodeChars_bad_escape p x q hp hx1 hx2]
  refine ⟨hdec, fun hn hx3 hx4 hfs => ?_⟩
  have hnl : '\n' ∉ p ++ ['\\', x] := by
    intro hmem
    rcases List.mem_append.mp hmem with hm | hm
    · exact hn hm
    · rcases List.mem_cons.mp hm with hm1 | hm1
      · exact absurd hm1 (by decide)
      · exact hx3 (List.mem_singleton.mp hm1).symm
  have hsplit : splitLines (p ++ ['\\', x]) = [p ++ ['\\', x]] :=
    splitLines_no_nl _ hnl (by simp)
  have hlast : (p ++ ['\\', x]).getLast? = some x := by
    rw [List.getLast?_append_of_ne_nil _ (by simp)]
    rfl
  have htrim : trimSuffixCr (p ++ ['\\', x]) = p ++ ['\\', x] :=
    trimSuffixCr_eq_self _ (by rw [hlast]; exact fun hc => hx4 (Option.some.inj hc))
  have hdec2 : decodeArg (p ++ ['\\', x]) = .error (.unsupportedEscape ['\\', x]) := by
    unfold decodeArg
    rw [if_neg (not_not_intro (by simp)), decodeChars_bad_escape p x [] hp hx1 hx2]
  apply expand_one_file_error fs fuel path (p ++ ['\\', x]) _ hfs
  rw [hsplit]
  simp only [processLines, htrim, hdec2]

theorem claim_unsupported_escape_rejected_witness :
    decodeArg (['a'] ++ '\\' :: 'q' :: []) = .error (.unsupportedEscape ['\\', 'q']) ∧
      expand (fun path => if path = ['f'] then some (['a'] ++ ['\\', 'q']) else none) 1
        [('@' :: ['f'])] =
        some (.error (.decodeFailed (.unsupportedEscape ['\\', 'q']))) := by
  have h := claim_unsupported_escape_rejected ['a'] 'q' []
    (fun path => if path = ['f'] then some (['a'] ++ ['\\', 'q']) else none) ['f'] 0
    (by decide) (by decide) (by decide)
  exact ⟨h.1, h.2 (by decide) (by decide) (by decide) (by simp)⟩

/-- C10: the argument consisting of only `@` is treated as a response-file
reference with an empty path: when the empty path is not readable,
`Expand` returns the read error instead of passing `@` through. -/
theorem claim_at_sign_empty_path (fs : List Char → Option (List Char)) (fuel : Nat)
    (h : fs [] = none) :
    expand fs (fuel + 1) [['@']] = some (.error (.readFailed [])) :=
  expand_read_failed fs fuel [] h

theorem claim_at_sign_empty_path_witness :
    expand emptyFs 1 [['@']] = some (.error (.readFailed [])) :=
  claim_at_sign_empty_path emptyFs 0 rfl

/-- C8: expanding a reference to a file with completely empty content
yields zero arguments, while the empty lines produced by consecutive
newlines inside non-empty content (here `"a\n\nb"`) decode to empty-string
arguments. -/
theorem claim_empty_file_and_empty_lines (fs : List Char → Option (List Char))
    (path1 path2 : List Char) (fuel : Nat) :
    (fs path1 = some [] → expand fs (fuel + 1) [('@' :: path1)] = some (.ok [])) ∧
    (fs path2 = some ['a', '\n', '\n', 'b'] →
      expand fs (fuel + 1) [('@' :: path2)] = some (.ok [['a'], [], ['b']])) := by
  constructor
  · intro h
    apply expand_one_file fs fuel path1 [] [] h
    rfl
  · intro h
    apply expand_one_file fs fuel path2 ['a', '\n', '\n', 'b'] [['a'], [], ['b']] h
    rfl

/-- C7: expansion of nested response files is transitive and preserves file
order: when the outer file's lines are `l1`, a reference to a nested file,
and `l2`, and the nested reference expands to `N`, the whole expansion is
`l1 :: (N ++ [l2])` — the nested file's fully expanded arguments spliced in
place. -/
theorem claim_nested_expansion (fs : List Char → Option (List Char)) (fuel : Nat)
    (outerPath nestedPath l1 l2 : List Char) (N : List (List Char))
    (h1a : '\\' ∉ l1) (h1b : '\n' ∉ l1) (h1c : l1.getLast? ≠ some '\r')
    (h1d : cutAtSign l1 = none)
    (h2a : '\\' ∉ l2) (h2b : '\n' ∉ l2) (h2c : l2.getLast? ≠ some '\r')
    (h2d : cutAtSign l2 = none)
    (h3a : '\\' ∉ nestedPath) (h3b : '\n' ∉ nestedPath)
    (h3c : ('@' :: nestedPath).getLast? ≠ some '\r')
    (hfile : fs outerPath =
      some (l1 ++ ('\n' :: (('@' :: nestedPath) ++ ('\n' :: (l2 ++ ['\n']))))))
    (hnested : expand fs fuel [('@' :: nestedPath)] = some (.ok N)) :
    expand fs (fuel + 1) [('@' :: outerPath)] = some (.ok (l1 :: (N ++ [l2]))) := by
  have hAtNl : '\n' ∉ '@' :: nestedPath := by
    intro hm
    rcases List.mem_cons.mp hm with hm | hm
    · exact absurd hm (by decide)
    · exact h3b hm
  have hAtBs : '\\' ∉ '@' :: nestedPath := by
    intro hm
    rcases List.mem_cons.mp hm with hm | hm
    · exact absurd hm (by decide)
    · exact h3a hm
  have hsplit :
      splitLines (l1 ++ ('\n' :: (('@' :: nestedPath) ++ ('\n' :: (l2 ++ ['\n']))))) =
        [l1, '@' :: nestedPath, l2] := by
    rw [splitLines_append_nl _ _ h1b, splitLines_append_nl _ _ hAtNl,
      show l2 ++ ['\n'] = l2 ++ ('\n' :: []) from rfl, splitLines_append_nl _ _ h2b]
    rfl
  have hAtCut : cutAtSign ('@' :: nestedPath) = some nestedPath := rfl
  apply expand_one_file fs fuel outerPath _ _ hfile
  rw [hsplit]
  simp [processLines, trimSuffixCr_eq_self _ h1c, trimSuffixCr_eq_self _ h2c,
    trimSuffixCr_eq_self _ h3c, decodeArg_of_no_bs _ h1a, decodeArg_of_no_bs _ h2a,
    decodeArg_of_no_bs _ hAtBs, h1d, h2d, hAtCut, hnested]

theorem claim_nested_expansion_witness :
    expand (fun p => if p = ['o'] then
        some (['a'] ++ ('\n' :: (('@' :: ['m']) ++ ('\n' :: (['b'] ++ ['\n'])))))
      else if p = ['m'] then some ['c', '\n'] else none) 2 [('@' :: ['o'])] =
      some (.ok (['a'] :: ([['c']] ++ [['b']]))) :=
  claim_nested_expansion _ 1 ['o'] ['m'] ['a'] ['b'] [['c']]
    (by decide) (by decide) (by decide) rfl
    (by decide) (by decide) (by decide) rfl
    (by decide) (by decide) (by decide)
    (by simp) rfl

/-- C4: `Shorten` creates a response file if and only if the total byte
length of the arguments is nonzero and exceeds the effective limit; in
particular a total exactly equal to a positive limit returns the original
list with no file, one byte over creates the file, a zero total never
creates a file whatever the limit, and a nonzero total with a negative
limit always shortens to the single `@path` argument. -/
theorem claim_shorten_threshold (args : List (List Char)) (opts : ShortenOptions)
    (p : List Char) :
    ((0 : Int) < opts.argLengthLimit →
      ((args.map byteLen).sum : Int) = opts.argLengthLimit →
      shorten args opts ⟨some p, true, true⟩ =
        { args := some args, cleanup := some .noop, err := none, tempFile := none }) ∧
    ((0 : Int) < opts.argLengthLimit →
      ((args.map byteLen).sum : Int) = opts.argLengthLimit + 1 →
      shorten args opts ⟨some p, true, true⟩ =
        { args := some [('@' :: p)], cleanup := some (.removeFile p), err := none,
          tempFile := some (p, encodeArgsBuf [] args) }) ∧
    ((args.map byteLen).sum = 0 →
      shorten args opts ⟨some p, true, true⟩ =
        { args := some args, cleanup := some .noop, err := none, tempFile := none }) ∧
    (opts.argLengthLimit < 0 → (args.map byteLen).sum ≠ 0 →
      shorten args opts ⟨some p, true, true⟩ =
        { args := some [('@' :: p)], cleanup := some (.removeFile p), err := none,
          tempFile := some (p, encodeArgsBuf [] args) }) ∧
    ((shorten args opts ⟨some p, true, true⟩).tempFile ≠ none ↔
      ((args.map byteLen).sum ≠ 0 ∧
        (applyDefaults opts).argLengthLimit < ((args.map byteLen).sum : Int))) := by
  refine ⟨?_, ?_, ?_, ?_, ?_⟩
  · intro hpos heq
    apply shorten_noop
    right
    rw [applyDefaults_of_ne_zero opts (by omega)]
    omega
  · intro hpos heq
    apply shorten_written
    rw [applyDefaults_of_ne_zero opts (by omega)]
    omega
  · intro h0
    exact shorten_noop args opts _ (Or.inl h0)
  · intro hneg h0
    apply shorten_written
    rw [applyDefaults_of_ne_zero opts (by omega)]
    omega
  · by_cases hc : (args.map byteLen).sum = 0 ∨
        ((args.map byteLen).sum : Int) ≤ (applyDefaults opts).argLengthLimit
    · rw [shorten_noop args opts _ hc]
      constructor
      · intro h
        exact absurd rfl h
      · rintro ⟨hne, hlt⟩
        exfalso
        rcases hc with hc | hc
        · exact hne hc
        · omega
    · push_neg at hc
      rw [shorten_written args opts p (by push_neg; exact hc)]
      constructor
      · intro _
        exact hc
      · intro _
        simp

theorem claim_shorten_threshold_witness :
    shorten [['a', 'b', 'c']] ⟨3⟩ ⟨some ['t'], true, true⟩ =
      { args := some [['a', 'b', 'c']], cleanup := some .noop, err := none,
        tempFile := none } ∧
    shorten [['a', 'b', 'c', 'd']] ⟨3⟩ ⟨some ['t'], true, true⟩ =
      { args := some [('@' :: ['t'])], cleanup := some (.removeFile ['t']), err := none,
        tempFile := some (['t'], encodeArgsBuf [] [['a', 'b', 'c', 'd']]) } ∧
    shorten [[], []] ⟨-1⟩ ⟨some ['t'], true, true⟩ =
      { args := some [[], []], cleanup := some .noop, err := none, tempFile := none } ∧
    shorten [['x']] ⟨-1⟩ ⟨some ['t'], true, true⟩ =
      { args := some [('@' :: ['t'])], cleanup := some (.removeFile ['t']), err := none,
        tempFile := some (['t'], encodeArgsBuf [] [['x']]) } :=
  ⟨(claim_shorten_threshold [['a', 'b', 'c']] ⟨3⟩ ['t']).1 (by decide) (by decide),
   (claim_shorten_threshold [['a', 'b', 'c', 'd']] ⟨3⟩ ['t']).2.1 (by decide) (by decide),
   (claim_shorten_threshold [[], []] ⟨-1⟩ ['t']).2.2.1 (by decide),
   (claim_shorten_threshold [['x']] ⟨-1⟩ ['t']).2.2.2.1 (by decide) (by decide)⟩

/-- C6: when the temporary file cannot be created, written or closed,
`Shorten` returns nil results together with the error and leaves no file
behind (the just-created file is removed on the write/close paths);
conversely, whenever `Shorten` reports no error its cleanup handle is
non-nil, including in the no-file case. -/
theorem claim_shorten_failure_semantics (args : List (List Char)) (opts : ShortenOptions)
    (p : List Char) (w : TempFileWorld) (b1 b2 : Bool) :
    ((shorten args opts w).err = none → (shorten args opts w).cleanup.isSome = true) ∧
    (¬((args.map byteLen).sum = 0 ∨
        ((args.map byteLen).sum : Int) ≤ (applyDefaults opts).argLengthLimit) →
      shorten args opts ⟨none, b1, b2⟩ =
        { args := none, cleanup := none, err := some .createFailed, tempFile := none } ∧
      shorten args opts ⟨some p, false, b2⟩ =
        { args := none, cleanup := none, err := some .writeFailed, tempFile := none } ∧
      shorten args opts ⟨some p, true, false⟩ =
        { args := none, cleanup := none, err := some .closeFailed, tempFile := none }) := by
  constructor
  · intro herr
    by_cases hc : (args.map byteLen).sum = 0 ∨
        ((args.map byteLen).sum : Int) ≤ (applyDefaults opts).argLengthLimit
    · rw [shorten_noop args opts w hc]
      rfl
    · obtain ⟨cr, bw, bc⟩ := w
      cases cr with
      | none =>
        rw [shorten_create_failed args opts bw bc hc] at herr
        simp at herr
      | some q =>
        cases bw with
        | false =>
          rw [shorten_write_failed args opts q bc hc] at herr
          simp at herr
        | true =>
          cases bc with
          | false =>
            rw [shorten_close_failed args opts q hc] at herr
            simp at herr
          | true =>
            rw [shorten_written args opts q hc]
            rfl
  · intro hc
    exact ⟨shorten_create_failed args opts b1 b2 hc,
      shorten_write_failed args opts p b2 hc, shorten_close_failed args opts p hc⟩

theorem claim_shorten_failure_semantics_witness :
    shorten [['a']] ⟨-1⟩ ⟨none, true, true⟩ =
      { args := none, cleanup := none, err := some .createFailed, tempFile := none } ∧
    shorten [['a']] ⟨-1⟩ ⟨some ['t'], false, true⟩ =
      { args := none, cleanup := none, err := some .writeFailed, tempFile := none } ∧
    shorten [['a']] ⟨-1⟩ ⟨some ['t'], true, false⟩ =
      { args := none, cleanup := none, err := some .closeFailed, tempFile := none } ∧
    (shorten [['a']] ⟨-1⟩ ⟨some ['t'], true, true⟩).cleanup.isSome = true :=
  ⟨((claim_shorten_failure_semantics [['a']] ⟨-1⟩ ['t'] ⟨some ['t'], true, true⟩ true
      true).2 (by decide)).1,
   ((claim_shorten_failure_semantics [['a']] ⟨-1⟩ ['t'] ⟨some ['t'], true, true⟩ true
      true).2 (by decide)).2.1,
   ((claim_shorten_failure_semantics [['a']] ⟨-1⟩ ['t'] ⟨some ['t'], true, true⟩ true
      true).2 (by decide)).2.2,
   (claim_shorten_failure_semantics [['a']] ⟨-1⟩ ['t'] ⟨some ['t'], true, true⟩ true
      true).1 (by decide)⟩

/-- C1 counterexample: the round trip fails as universally stated. For the
one-element list `["@"]` under limit 5, `Shorten` succeeds and returns the
list unchanged, but `Expand` then treats `@` as a reference to the empty
path and fails with a read error instead of returning `["@"]`. -/
theorem claim_roundtrip_counterexample :
    (shorten [['@']] ⟨5⟩ ⟨some ['t'], true, true⟩).err = none ∧
    (shorten [['@']] ⟨5⟩ ⟨some ['t'], true, true⟩).args = some [['@']] ∧
    expand (fsAfterShorten emptyFs (shorten [['@']] ⟨5⟩ ⟨some ['t'], true, true⟩)) 1
      ((shorten [['@']] ⟨5⟩ ⟨some ['t'], true, true⟩).args.getD []) =
      some (.error (.readFailed [])) ∧
    expand (fsAfterShorten emptyFs (shorten [['@']] ⟨5⟩ ⟨some ['t'], true, true⟩)) 1
      ((shorten [['@']] ⟨5⟩ ⟨some ['t'], true, true⟩).args.getD []) ≠
      some (.ok [['@']]) :=
  ⟨rfl, rfl, rfl, fun hEq => Except.noConfusion (Option.some.inj hEq)⟩

/-- C1 amended: for every argument list whose elements neither start with
`@` nor end with a carriage return, and every `ArgLengthLimit` value,
shortening succeeds and expanding its result against the filesystem holding
the written response file yields the original list element-wise. -/
theorem claim_roundtrip_amended (args : List (List Char)) (opts : ShortenOptions)
    (fs : List Char → Option (List Char)) (p : List Char) (fuel : Nat)
    (h : ∀ a ∈ args, cutAtSign a = none ∧ a.getLast? ≠ some '\r') :
    (shorten args opts ⟨some p, true, true⟩).err = none ∧
      expand (fsAfterShorten fs (shorten args opts ⟨some p, true, true⟩)) (fuel + 1)
        ((shorten args opts ⟨some p, true, true⟩).args.getD []) = some (.ok args) := by
  by_cases hc : (args.map byteLen).sum = 0 ∨
      ((args.map byteLen).sum : Int) ≤ (applyDefaults opts).argLengthLimit
  · rw [shorten_noop args opts _ hc]
    exact ⟨rfl, expand_no_at fs fuel args (fun a ha => (h a ha).1)⟩
  · rw [shorten_written args opts p hc]
    refine ⟨rfl, ?_⟩
    apply expand_one_file _ fuel p (encodeArgsBuf [] args) args
    · simp [fsAfterShorten]
    · rw [splitLines_encodeArgsBuf]
      exact processLines_plain _ args h

theorem claim_roundtrip_amended_witness :
    (shorten [['a']] ⟨-1⟩ ⟨some ['t'], true, true⟩).err = none ∧
      expand (fsAfterShorten emptyFs (shorten [['a']] ⟨-1⟩ ⟨some ['t'], true, true⟩)) 1
        ((shorten [['a']] ⟨-1⟩ ⟨some ['t'], true, true⟩).args.getD []) =
        some (.ok [['a']]) :=
  claim_roundtrip_amended [['a']] ⟨-1⟩ emptyFs ['t'] 0 (by decide)

/-- C9: the encoder emits carriage returns verbatim, `Expand`'s
line-trimming strips exactly one trailing carriage return, and consequently
an argument ending in a carriage return that `Shorten` writes into a
response file comes back through `Expand` with its final carriage return
removed. -/
theorem claim_carriage_return_roundtrip (a : List Char) (s : List Char)
    (fs : List Char → Option (List Char)) (p : List Char)
    (ha1 : '\\' ∉ a) (ha2 : '\n' ∉ a) (ha3 : cutAtSign a = none) :
    encodeChars ('\r' :: s) = '\r' :: encodeChars s ∧
    trimSuffixCr (a ++ ['\r']) = a ∧
    trimSuffixCr (a ++ ['\r', '\r']) = a ++ ['\r'] ∧
    ((shorten [a ++ ['\r']] ⟨-1⟩ ⟨some p, true, true⟩).err = none ∧
      expand (fsAfterShorten fs (shorten [a ++ ['\r']] ⟨-1⟩ ⟨some p, true, true⟩)) 1
        ((shorten [a ++ ['\r']] ⟨-1⟩ ⟨some p, true, true⟩).args.getD []) =
        some (.ok [a])) := by
  have henc : encodeChars (a ++ ['\r']) = a ++ ['\r'] := by
    apply encodeChars_eq_self
    · intro hm
      rcases List.mem_append.mp hm with hm | hm
      · exact ha1 hm
      · exact absurd (List.mem_singleton.mp hm) (by decide)
    · intro hm
      rcases List.mem_append.mp hm with hm | hm
      · exact ha2 hm
      · exact absurd (List.mem_singleton.mp hm) (by decide)
  have hsum : ¬(([a ++ ['\r']].map byteLen).sum = 0 ∨
      ((([a ++ ['\r']].map byteLen).sum : Int) ≤
        (applyDefaults ⟨-1⟩).argLengthLimit)) := by
    have hlen : ([a ++ ['\r']].map byteLen).sum = byteLen a + 1 := by
      simp [byteLen, show Char.utf8Size '\r' = 1 from rfl]
    have hlim : (applyDefaults ⟨-1⟩).argLengthLimit = -1 := rfl
    rw [hlen, hlim]
    omega
  refine ⟨?_, trimSuffixCr_append_cr a, ?_, ?_⟩
  · rw [encodeChars_cons]
    rw [if_neg (by decide), if_neg (by decide)]
    rfl
  · have hb := trimSuffixCr_append_cr (a ++ ['\r'])
    rwa [List.append_assoc, List.singleton_append] at hb
  · rw [shorten_written [a ++ ['\r']] ⟨-1⟩ p hsum]
    refine ⟨rfl, ?_⟩
    apply expand_one_file _ 0 p (encodeArgsBuf [] [a ++ ['\r']]) [a]
    · simp [fsAfterShorten]
    · rw [splitLines_encodeArgsBuf]
      simp only [List.map_cons, List.map_nil, processLines, henc,
        trimSuffixCr_append_cr a, decodeArg_of_no_bs a ha1, ha3]
      rfl

theorem claim_carriage_return_roundtrip_witness :
    encodeChars ('\r' :: ['s']) = '\r' :: encodeChars ['s'] ∧
    trimSuffixCr (['x'] ++ ['\r']) = ['x'] ∧
    trimSuffixCr (['x'] ++ ['\r', '\r']) = ['x'] ++ ['\r'] ∧
    ((shorten [['x'] ++ ['\r']] ⟨-1⟩ ⟨some ['t'], true, true⟩).err = none ∧
      expand (fsAfterShorten emptyFs
          (shorten [['x'] ++ ['\r']] ⟨-1⟩ ⟨some ['t'], true, true⟩)) 1
        ((shorten [['x'] ++ ['\r']] ⟨-1⟩ ⟨some ['t'], true, true⟩).args.getD []) =
        some (.ok [['x']])) :=
  claim_carriage_return_roundtrip ['x'] ['s'] emptyFs ['t']
    (by decide) (by decide) rfl

theorem claim_empty_file_and_empty_lines_witness :
    expand (fun path => if path = ['u'] then some [] else
      if path = ['v'] then some ['a', '\n', '\n', 'b'] else none) 1 [('@' :: ['u'])] =
      some (.ok []) ∧
    expand (fun path => if path = ['u'] then some [] else
      if path = ['v'] then some ['a', '\n', '\n', 'b'] else none) 1 [('@' :: ['v'])] =
      some (.ok [['a'], [], ['b']]) :=
  ⟨(claim_empty_file_and_empty_lines _ ['u'] ['v'] 0).1 (by simp),
   (claim_empty_file_and_empty_lines _ ['u'] ['v'] 0).2 (by simp)⟩

end ResponseFile
